import Mathlib

/-!
Shallow embedding of `solutions/Bilateral/bilateral.cpp`: the scalar
reference bilateral filter (`runReference`), the pixel-wise verification
loop, and the benchmark loop of `main`.

Modelling conventions:
* pixel buffers are total functions `ℕ → ℕ` from byte index to byte value;
* C `float` arithmetic is modelled by exact real arithmetic (`ℝ`),
  with `expf`/`sqrtf`/`powf` as `Real.exp`/`Real.sqrt`/`(·^2)`;
* the cast `(uint8_t)` applied to a value already clamped to `[0,255]`
  truncates toward zero, i.e. `Nat.floor`;
* loop nests that write a buffer become folds over the row-major list of
  loop indices, each step updating the buffer function.
-/

/-- Byte index of channel `c` of pixel `(x, y)` in a `w`-wide RGBA8 image:
`(x + y*width)*4 + c` in the source. -/
def idx (w x y : ℤ) (c : ℕ) : ℕ := ((x + y * w) * 4).toNat + c

/-- Channel `c` of pixel `(x,y)` normalized to `[0,1]`: `input[...]/255.f`. -/
noncomputable def inChan (input : ℕ → ℕ) (w x y : ℤ) (c : ℕ) : ℝ :=
  (input (idx w x y c) : ℝ) / 255

/-- Clamped sample x-coordinate: `std::min(std::max(x+i, 0), width-1)`. -/
def sampleX (w x i : ℤ) : ℤ := min (max (x + i) 0) (w - 1)

/-- Clamped sample y-coordinate: `std::min(std::max(y+j, 0), height-1)`. -/
def sampleY (h y j : ℤ) : ℤ := min (max (y + j) 0) (h - 1)

/-- Normalized channel `c` of the neighborhood sample at offset `(i,j)`
from pixel `(x,y)`, with edge-clamped coordinates. -/
noncomputable def sampleChan (input : ℕ → ℕ) (w h x y i j : ℤ) (c : ℕ) : ℝ :=
  inChan input w (sampleX w x i) (sampleY h y j) c

/-- Domain (spatial) weight:
`norm = sqrt((float)(i*i) + (float)(j*j)) * (1.f/sigmaDomain);
 weight = exp(-0.5f * (norm*norm))`. -/
noncomputable def domainWeight (sd : ℝ) (i j : ℤ) : ℝ :=
  Real.exp (-0.5 * ((Real.sqrt (((i * i : ℤ) : ℝ) + ((j * j : ℤ) : ℝ)) * (1 / sd)) *
    (Real.sqrt (((i * i : ℤ) : ℝ) + ((j * j : ℤ) : ℝ)) * (1 / sd))))

/-- Range (color) weight:
`norm = sqrt(pow(r-cr,2) + pow(g-cg,2) + pow(b-cb,2)) * (1.f/sigmaRange);
 weight *= exp(-0.5f * (norm*norm))`. -/
noncomputable def rangeWeight (sr r g b cr cg cb : ℝ) : ℝ :=
  Real.exp (-0.5 * ((Real.sqrt ((r - cr) ^ 2 + (g - cg) ^ 2 + (b - cb) ^ 2) * (1 / sr)) *
    (Real.sqrt ((r - cr) ^ 2 + (g - cg) ^ 2 + (b - cb) ^ 2) * (1 / sr))))

/-- Combined bilateral weight of the sample at offset `(i,j)` for output
pixel `(x,y)`. -/
noncomputable def pixWeight (input : ℕ → ℕ) (w h : ℤ) (sd sr : ℝ) (x y i j : ℤ) : ℝ :=
  domainWeight sd i j *
    rangeWeight sr (sampleChan input w h x y i j 0) (sampleChan input w h x y i j 1)
      (sampleChan input w h x y i j 2)
      (inChan input w x y 0) (inChan input w x y 1) (inChan input w x y 2)

/-- The neighborhood offsets `-2..2` iterated by the inner loops. -/
def offsets : List ℤ := [-2, -1, 0, 1, 2]

/-- The weight normalization accumulator `coeff` after the 5×5 loops. -/
noncomputable def coeff (input : ℕ → ℕ) (w h : ℤ) (sd sr : ℝ) (x y : ℤ) : ℝ :=
  (offsets.map (fun j => (offsets.map (fun i => pixWeight input w h sd sr x y i j)).sum)).sum

/-- The per-channel accumulator (`sr`/`sg`/`sb` in the source) after the
5×5 loops: sum of `weight * sample`. -/
noncomputable def chanAcc (input : ℕ → ℕ) (w h : ℤ) (sd sr : ℝ) (x y : ℤ) (c : ℕ) : ℝ :=
  (offsets.map (fun j => (offsets.map (fun i =>
    pixWeight input w h sd sr x y i j * sampleChan input w h x y i j c)).sum)).sum

/-- One output color byte:
`(uint8_t)(std::min(std::max(acc/coeff, 0.f), 1.f)*255.f)`. -/
noncomputable def outByte (input : ℕ → ℕ) (w h : ℤ) (sd sr : ℝ) (x y : ℤ) (c : ℕ) : ℕ :=
  ⌊(min (max (chanAcc input w h sd sr x y c / coeff input w h sd sr x y) 0) 1) * 255⌋₊

/-- The four buffer stores performed for output pixel `(x,y)`:
three filtered color bytes and the pass-through alpha byte. -/
noncomputable def writePixel (input : ℕ → ℕ) (w h : ℤ) (sd sr : ℝ) (x y : ℤ) (out : ℕ → ℕ) : ℕ → ℕ :=
  fun n =>
    if n = idx w x y 0 then outByte input w h sd sr x y 0
    else if n = idx w x y 1 then outByte input w h sd sr x y 1
    else if n = idx w x y 2 then outByte input w h sd sr x y 2
    else if n = idx w x y 3 then input (idx w x y 3)
    else out n

/-- Row-major list of pixel coordinates visited by the nested
`for (y...) for (x...)` loops of `runReference`. -/
def pixelList (w h : ℤ) : List (ℤ × ℤ) :=
  (List.range h.toNat).flatMap (fun y : ℕ =>
    (List.range w.toNat).map (fun x : ℕ => ((x : ℤ), (y : ℤ))))

/-- `runReference`: filter every pixel, writing into the output buffer
`out0`; the result is the final state of the output buffer. -/
noncomputable def runReference (input out0 : ℕ → ℕ) (w h : ℤ) (sd sr : ℝ) : ℕ → ℕ :=
  (pixelList w h).foldl (fun out p => writePixel input w h sd sr p.1 p.2 out) out0

/-- Verification messages printed by the check loop in `main`, in order. -/
inductive VerMsg : Type
  /-- the `"Verification failed:"` header, printed before the first error -/
  | failedHeader : VerMsg
  /-- one `"(x,y,c): out vs ref"` line for an early mismatch -/
  | detail (x y c o r : ℕ) : VerMsg
  /-- the final `"Total errors: n"` line -/
  | total (n : ℕ) : VerMsg
  /-- the final `"Verification passed."` line -/
  | passed : VerMsg
deriving DecidableEq, Repr

/-- Recognizes a mismatch-detail line. -/
def VerMsg.isDetail : VerMsg → Bool
  | VerMsg.detail _ _ _ _ _ => true
  | _ => false

/-- Recognizes a total-error-count line. -/
def VerMsg.isTotal : VerMsg → Bool
  | VerMsg.total _ => true
  | _ => false

/-- Row-major list of `(x, y, c)` triples visited by the triple loop of
the verification phase (`c` ranges over the three color channels only). -/
def chanList (w h : ℤ) : List (ℤ × ℤ × ℕ) :=
  (List.range h.toNat).flatMap (fun y : ℕ =>
    (List.range w.toNat).flatMap (fun x : ℕ =>
      (List.range 3).map (fun c : ℕ => ((x : ℤ), (y : ℤ), c))))

/-- Whether `out` and `ref` mismatch at `(x,y,c)`:
`diff = abs((int)ref-(int)out); diff > tolerance`. -/
def mismatch (outB refB : ℕ → ℕ) (w : ℤ) (tol : ℕ) (t : ℤ × ℤ × ℕ) : Bool :=
  tol < ((refB (idx w t.1 t.2.1 t.2.2) : ℤ) - (outB (idx w t.1 t.2.1 t.2.2) : ℤ)).natAbs

/-- One step of the verification loop body: on a mismatch, print the
header if this is the first error, print a detail line for the first 8
errors (`errors++ < 8`), and increment the error count. -/
def verStep (outB refB : ℕ → ℕ) (w : ℤ) (tol : ℕ) (st : ℕ × List VerMsg)
    (t : ℤ × ℤ × ℕ) : ℕ × List VerMsg :=
  if mismatch outB refB w tol t then
    (st.1 + 1,
      (if st.1 = 0 then st.2 ++ [VerMsg.failedHeader] else st.2) ++
        (if st.1 < 8 then
          [VerMsg.detail t.1.toNat t.2.1.toNat t.2.2
            (outB (idx w t.1 t.2.1 t.2.2)) (refB (idx w t.1 t.2.1 t.2.2))]
        else []))
  else st

/-- The verification triple loop: final error count and messages so far. -/
def verLoop (outB refB : ℕ → ℕ) (w h : ℤ) (tol : ℕ) : ℕ × List VerMsg :=
  (chanList w h).foldl (verStep outB refB w tol) (0, [])

/-- The whole verification phase, including the final
`if (errors) "Total errors: n" else "Verification passed."` report. -/
def verRun (outB refB : ℕ → ℕ) (w h : ℤ) (tol : ℕ) : ℕ × List VerMsg :=
  let st := verLoop outB refB w h tol
  if st.1 = 0 then (st.1, st.2 ++ [VerMsg.passed])
  else (st.1, st.2 ++ [VerMsg.total st.1])

/-- The final error count of the verification loop. -/
def countErrors (outB refB : ℕ → ℕ) (w h : ℤ) (tol : ℕ) : ℕ :=
  (verLoop outB refB w h tol).1

/-- One accelerated-kernel invocation as issued by the benchmark loop:
`kernel(EnqueueArgs(queue, global, wgsize), input, output, sigmaDomain,
sigmaRange)` — the image arguments and the two sigmas. -/
structure KernelInvocation : Type where
  /-- input image buffer handle -/
  inBuf : ℕ
  /-- output image buffer handle -/
  outBuf : ℕ
  /-- sigmaDomain argument -/
  sd : ℝ
  /-- sigmaRange argument -/
  sr : ℝ

/-- The benchmark loop `for (unsigned i = 0; i < iterations; i++)`:
the sequence of kernel invocations it issues. -/
def benchmarkLoop (inBuf outBuf : ℕ) (sd sr : ℝ) (iterations : ℕ) : List KernelInvocation :=
  (List.range iterations).map (fun _ => ⟨inBuf, outBuf, sd, sr⟩)

/-- The reported mean per-frame latency: `total/iterations`. -/
noncomputable def perFrame (total : ℝ) (iterations : ℕ) : ℝ := total / (iterations : ℝ)

/-- Recognizes the success line. -/
def VerMsg.isPassed : VerMsg → Bool
  | VerMsg.passed => true
  | _ => false

/-- Following the spec's words: the number of (pixel, channel) pairs,
with the channel ranging over the three color channels only, whose
absolute difference on the 0–255 integer scale exceeds the tolerance. -/
def mismatchCount (outB refB : ℕ → ℕ) (w h : ℤ) (tol : ℕ) : ℕ :=
  ((Finset.range h.toNat ×ˢ Finset.range w.toNat ×ˢ Finset.range 3).filter
    (fun t => tol < ((refB (idx w (t.2.1 : ℤ) (t.1 : ℤ) t.2.2) : ℤ) -
      (outB (idx w (t.2.1 : ℤ) (t.1 : ℤ) t.2.2) : ℤ)).natAbs)).card

/-- Following the spec's words: Euclidean distance in normalized RGB space. -/
noncomputable def euclideanRGBDistance (r g b cr cg cb : ℝ) : ℝ :=
  Real.sqrt ((r - cr) ^ 2 + (g - cg) ^ 2 + (b - cb) ^ 2)

/-- Following the spec's words: the combined weight
`exp(-0.5*(sqrt(i*i+j*j)/sigmaDomain)^2) *
 exp(-0.5*(euclideanRGBDistance(sample,center)/sigmaRange)^2)`
on `[0,1]`-normalized channels, sampled with clamped coordinates. -/
noncomputable def specWeight (input : ℕ → ℕ) (w h : ℤ) (sd sr : ℝ) (x y i j : ℤ) : ℝ :=
  Real.exp (-0.5 * (Real.sqrt ((i : ℝ) ^ 2 + (j : ℝ) ^ 2) / sd) ^ 2) *
    Real.exp (-0.5 * (euclideanRGBDistance
      (sampleChan input w h x y i j 0) (sampleChan input w h x y i j 1)
      (sampleChan input w h x y i j 2)
      (inChan input w x y 0) (inChan input w x y 1) (inChan input w x y 2) / sr) ^ 2)

/-- Following the spec's words: the sum of the weights over all 25 offsets. -/
noncomputable def specDen (input : ℕ → ℕ) (w h : ℤ) (sd sr : ℝ) (x y : ℤ) : ℝ :=
  ∑ j ∈ Finset.Icc (-2 : ℤ) 2, ∑ i ∈ Finset.Icc (-2 : ℤ) 2,
    specWeight input w h sd sr x y i j

/-- Following the spec's words: the sum of `weight * sample` over all 25
offsets, for channel `c`. -/
noncomputable def specNum (input : ℕ → ℕ) (w h : ℤ) (sd sr : ℝ) (x y : ℤ) (c : ℕ) : ℝ :=
  ∑ j ∈ Finset.Icc (-2 : ℤ) 2, ∑ i ∈ Finset.Icc (-2 : ℤ) 2,
    specWeight input w h sd sr x y i j * sampleChan input w h x y i j c

/-- Following the spec's words: quotient of the two sums, clamped to
`[0,1]`, multiplied by 255, truncated to an 8-bit value. -/
noncomputable def specOutByte (input : ℕ → ℕ) (w h : ℤ) (sd sr : ℝ) (x y : ℤ) (c : ℕ) : ℕ :=
  ⌊(min (max (specNum input w h sd sr x y c / specDen input w h sd sr x y) 0) 1) * 255⌋₊

/-- Row-major linearization is injective on in-range coordinates. -/
lemma rowmajor_eq {w x x' y y' : ℤ} (hx : 0 ≤ x) (hxw : x < w) (hx' : 0 ≤ x')
    (hxw' : x' < w) (h : x + y * w = x' + y' * w) : x = x' ∧ y = y' := by
  have hw : 0 < w := lt_of_le_of_lt hx hxw
  have hyy : y = y' := by
    by_contra hne
    rcases lt_or_gt_of_ne hne with hy | hy
    · have h1 : (1 : ℤ) ≤ y' - y := by omega
      have h2 : w ≤ (y' - y) * w := le_mul_of_one_le_left hw.le h1
      have h3 : (y' - y) * w = y' * w - y * w := sub_mul y' y w
      linarith
    · have h1 : (1 : ℤ) ≤ y - y' := by omega
      have h2 : w ≤ (y - y') * w := le_mul_of_one_le_left hw.le h1
      have h3 : (y - y') * w = y * w - y' * w := sub_mul y y' w
      linarith
  subst hyy
  exact ⟨by linarith, rfl⟩

/-- Byte indices of distinct in-range pixels never collide (channels `< 4`). -/
lemma idx_ne {w x y x' y' : ℤ} {c c' : ℕ}
    (hx : 0 ≤ x) (hxw : x < w) (hy : 0 ≤ y)
    (hx' : 0 ≤ x') (hxw' : x' < w) (hy' : 0 ≤ y')
    (hc : c < 4) (hc' : c' < 4) (hne : (x, y) ≠ (x', y')) :
    idx w x y c ≠ idx w x' y' c' := by
  have hw : 0 < w := lt_of_le_of_lt hx hxw
  have hP : x + y * w ≠ x' + y' * w := by
    intro hEq
    rcases rowmajor_eq hx hxw hx' hxw' hEq with ⟨h1, h2⟩
    exact hne (by simp [h1, h2])
  have hP0 : 0 ≤ x + y * w := add_nonneg hx (mul_nonneg hy hw.le)
  have hP0' : 0 ≤ x' + y' * w := add_nonneg hx' (mul_nonneg hy' hw.le)
  unfold idx
  generalize x + y * w = P at hP hP0
  generalize x' + y' * w = Q at hP hP0'
  omega

/-- Same pixel, different channels `< 4`: indices are equal iff channels are. -/
lemma idx_inj_c {w x y : ℤ} {c c' : ℕ} : idx w x y c = idx w x y c' ↔ c = c' := by
  unfold idx; omega

/-- Membership in the row-major pixel list. -/
lemma mem_pixelList {w h : ℤ} {p : ℤ × ℤ} :
    p ∈ pixelList w h ↔ 0 ≤ p.1 ∧ p.1 < w ∧ 0 ≤ p.2 ∧ p.2 < h := by
  obtain ⟨a, b⟩ := p
  constructor
  · intro hp
    rcases List.mem_flatMap.mp hp with ⟨ky, hky, hm⟩
    rcases List.mem_map.mp hm with ⟨kx, hkx, hEq⟩
    rw [List.mem_range] at hky hkx
    have hEq' : ((kx : ℤ), (ky : ℤ)) = (a, b) := hEq
    injection hEq' with e1 e2
    subst e1; subst e2
    refine ⟨by omega, by omega, by omega, by omega⟩
  · rintro ⟨h1, h2, h3, h4⟩
    refine List.mem_flatMap.mpr ⟨b.toNat, List.mem_range.mpr (by omega), ?_⟩
    refine List.mem_map.mpr ⟨a.toNat, List.mem_range.mpr (by omega), ?_⟩
    show ((a.toNat : ℤ), (b.toNat : ℤ)) = (a, b)
    have e1 : (a.toNat : ℤ) = a := by omega
    have e2 : (b.toNat : ℤ) = b := by omega
    rw [e1, e2]

/-- A fold of buffer updates preserves a byte value that every step keeps. -/
lemma foldl_keep {α : Type} (g : α → (ℕ → ℕ) → (ℕ → ℕ)) (n : ℕ) (v : ℕ) :
    ∀ (L : List α) (out0 : ℕ → ℕ),
      (∀ q ∈ L, ∀ out, out n = v → g q out n = v) → out0 n = v →
      (L.foldl (fun o q => g q o) out0) n = v := by
  intro L
  induction L with
  | nil => intro out0 _ h0; simpa using h0
  | cons a L ih =>
    intro out0 hq h0
    simp only [List.foldl_cons]
    exact ih (g a out0) (fun q hql => hq q (List.mem_cons_of_mem a hql))
      (hq a (List.mem_cons_self a L) out0 h0)

/-- A fold of buffer updates where one element of the list writes byte `n`
to value `v` (independently of the buffer) and every other element leaves
byte `n` alone ends with byte `n` equal to `v`. -/
lemma foldl_write {α : Type} (g : α → (ℕ → ℕ) → (ℕ → ℕ)) (n : ℕ) (v : ℕ) (p : α) :
    ∀ (L : List α) (out0 : ℕ → ℕ), p ∈ L →
      (∀ out, g p out n = v) →
      (∀ q ∈ L, q ≠ p → ∀ out, g q out n = out n) →
      (L.foldl (fun o q => g q o) out0) n = v := by
  intro L
  induction L with
  | nil => intro out0 hp _ _; exact absurd hp (List.not_mem_nil p)
  | cons a L ih =>
    intro out0 hp hset hskip
    simp only [List.foldl_cons]
    by_cases ha : a = p
    · subst ha
      apply foldl_keep
      · intro q hql out hout
        by_cases hqp : q = a
        · subst hqp; exact hset out
        · rw [hskip q (List.mem_cons_of_mem a hql) hqp out]; exact hout
      · exact hset out0
    · have hp' : p ∈ L := by
        rcases List.mem_cons.mp hp with h | h
        · exact absurd h.symm ha
        · exact h
      exact ih (g a out0) hp' hset (fun q hql => hskip q (List.mem_cons_of_mem a hql))

/-- A pixel write at a different in-range pixel leaves byte
`idx w x y c` (with `c < 4`) unchanged. -/
lemma writePixel_skip (input : ℕ → ℕ) (w h : ℤ) (sd sr : ℝ) {x y : ℤ} {c : ℕ}
    {q : ℤ × ℤ} (hx : 0 ≤ x) (hxw : x < w) (hy : 0 ≤ y)
    (hq1 : 0 ≤ q.1) (hq2 : q.1 < w) (hq3 : 0 ≤ q.2)
    (hc : c < 4) (hqp : q ≠ (x, y)) (out : ℕ → ℕ) :
    writePixel input w h sd sr q.1 q.2 out (idx w x y c) = out (idx w x y c) := by
  obtain ⟨qa, qb⟩ := q
  dsimp only at hq1 hq2 hq3 ⊢
  have hne : ((x : ℤ), (y : ℤ)) ≠ (qa, qb) := by
    intro hEq
    injection hEq with e1 e2
    exact hqp (by rw [e1, e2])
  have hk : ∀ k : ℕ, k < 4 → idx w x y c ≠ idx w qa qb k := by
    intro k hk4
    exact idx_ne hx hxw hy hq1 hq2 hq3 hc hk4 hne
  simp only [writePixel]
  rw [if_neg (hk 0 (by norm_num)), if_neg (hk 1 (by norm_num)),
    if_neg (hk 2 (by norm_num)), if_neg (hk 3 (by norm_num))]

/-- The reference filter writes color byte `c < 3` of an in-range pixel to
the filtered value. -/
lemma runReference_color (input out0 : ℕ → ℕ) (w h : ℤ) (sd sr : ℝ) {x y : ℤ} {c : ℕ}
    (hx : 0 ≤ x) (hxw : x < w) (hy : 0 ≤ y) (hyh : y < h) (hc : c < 3) :
    runReference input out0 w h sd sr (idx w x y c) = outByte input w h sd sr x y c := by
  unfold runReference
  apply foldl_write (fun p out => writePixel input w h sd sr p.1 p.2 out)
    (idx w x y c) (outByte input w h sd sr x y c) ((x, y) : ℤ × ℤ)
  · exact mem_pixelList.mpr ⟨hx, hxw, hy, hyh⟩
  · intro out
    interval_cases c <;> simp [writePixel, idx_inj_c]
  · intro q hq hqp out
    obtain ⟨hq1, hq2, hq3, _⟩ := mem_pixelList.mp hq
    exact writePixel_skip input w h sd sr hx hxw hy hq1 hq2 hq3
      (by omega) hqp out

/-- The reference filter writes the alpha byte of an in-range pixel to the
input's alpha byte. -/
lemma runReference_alpha_eq (input out0 : ℕ → ℕ) (w h : ℤ) (sd sr : ℝ) {x y : ℤ}
    (hx : 0 ≤ x) (hxw : x < w) (hy : 0 ≤ y) (hyh : y < h) :
    runReference input out0 w h sd sr (idx w x y 3) = input (idx w x y 3) := by
  unfold runReference
  apply foldl_write (fun p out => writePixel input w h sd sr p.1 p.2 out)
    (idx w x y 3) (input (idx w x y 3)) ((x, y) : ℤ × ℤ)
  · exact mem_pixelList.mpr ⟨hx, hxw, hy, hyh⟩
  · intro out
    simp [writePixel, idx_inj_c]
  · intro q hq hqp out
    obtain ⟨hq1, hq2, hq3, _⟩ := mem_pixelList.mp hq
    exact writePixel_skip input w h sd sr hx hxw hy hq1 hq2 hq3
      (by norm_num) hqp out

/-- The 5×5 offset range written as the interval `[-2,2]` of the spec. -/
lemma Icc_offsets : Finset.Icc (-2 : ℤ) 2 = {-2, -1, 0, 1, 2} := by
  ext n
  simp only [Finset.mem_Icc, Finset.mem_insert, Finset.mem_singleton]
  omega

/-- The inner-loop list sum is the sum over the offset interval. -/
lemma sum_offsets (f : ℤ → ℝ) :
    (offsets.map f).sum = ∑ i ∈ Finset.Icc (-2 : ℤ) 2, f i := by
  rw [Icc_offsets]
  rw [show ({-2, -1, 0, 1, 2} : Finset ℤ) = insert (-2) (insert (-1) (insert 0 (insert 1 {2}))) from rfl]
  rw [Finset.sum_insert (by decide), Finset.sum_insert (by decide),
    Finset.sum_insert (by decide), Finset.sum_insert (by decide), Finset.sum_singleton]
  simp [offsets]

/-- The code's combined weight coincides with the spec's weight formula. -/
lemma pixWeight_eq_spec (input : ℕ → ℕ) (w h : ℤ) (sd sr : ℝ) (x y i j : ℤ) :
    pixWeight input w h sd sr x y i j = specWeight input w h sd sr x y i j := by
  unfold pixWeight specWeight domainWeight rangeWeight euclideanRGBDistance
  have harg : (((i * i : ℤ) : ℝ)) + (((j * j : ℤ) : ℝ)) = (i : ℝ) ^ 2 + (j : ℝ) ^ 2 := by
    push_cast; ring
  rw [harg]
  congr 1
  · congr 1; ring
  · congr 1; ring

/-- The code's normalization accumulator is the spec's weight sum. -/
lemma coeff_eq_specDen (input : ℕ → ℕ) (w h : ℤ) (sd sr : ℝ) (x y : ℤ) :
    coeff input w h sd sr x y = specDen input w h sd sr x y := by
  unfold coeff specDen
  rw [sum_offsets]
  refine Finset.sum_congr rfl ?_
  intro j _
  rw [sum_offsets]
  exact Finset.sum_congr rfl (fun i _ => pixWeight_eq_spec input w h sd sr x y i j)

/-- The code's channel accumulator is the spec's weighted sum. -/
lemma chanAcc_eq_specNum (input : ℕ → ℕ) (w h : ℤ) (sd sr : ℝ) (x y : ℤ) (c : ℕ) :
    chanAcc input w h sd sr x y c = specNum input w h sd sr x y c := by
  unfold chanAcc specNum
  rw [sum_offsets]
  refine Finset.sum_congr rfl ?_
  intro j _
  rw [sum_offsets]
  refine Finset.sum_congr rfl ?_
  intro i _
  rw [pixWeight_eq_spec]

/-- C1: for every input image with `W>0`, `H>0` and positive sigmas, the
reference filter computes each output color byte `(x,y,c)` as the sum over
the 25 offsets of `weight*sample` divided by the sum of weights — where
`weight = exp(-0.5*(sqrt(i*i+j*j)/sigmaDomain)^2) *
exp(-0.5*(euclideanRGBDistance(sample,center)/sigmaRange)^2)` on
normalized channels sampled at clamped coordinates — with the quotient
clamped to `[0,1]`, scaled by 255, and truncated to 8 bits. -/
theorem C1_reference_formula (input out0 : ℕ → ℕ) (w h : ℤ) (sd sr : ℝ) (x y : ℤ) (c : ℕ)
    (hw : 0 < w) (hh : 0 < h) (hsd : 0 < sd) (hsr : 0 < sr)
    (hx : 0 ≤ x) (hxw : x < w) (hy : 0 ≤ y) (hyh : y < h) (hc : c < 3) :
    runReference input out0 w h sd sr (idx w x y c) = specOutByte input w h sd sr x y c := by
  rw [runReference_color input out0 w h sd sr hx hxw hy hyh hc]
  unfold outByte specOutByte
  rw [coeff_eq_specDen, chanAcc_eq_specNum]

/-- Witness for C1 at a concrete in-range pixel. -/
theorem C1_reference_formula_witness :
    runReference (fun _ => 0) (fun _ => 0) 1 1 1 1 (idx 1 0 0 0) =
      specOutByte (fun _ => 0) 1 1 1 1 0 0 0 :=
  C1_reference_formula (fun _ => 0) (fun _ => 0) 1 1 1 1 0 0 0
    (by norm_num) (by norm_num) (by norm_num) (by norm_num)
    (by norm_num) (by norm_num) (by norm_num) (by norm_num) (by norm_num)

/-- C3: the reference filter writes every output pixel's alpha channel
equal to the input pixel's alpha channel, unmodified, for all sigmas. -/
theorem C3_alpha_passthrough (input out0 : ℕ → ℕ) (w h : ℤ) (sd sr : ℝ) (x y : ℤ)
    (hx : 0 ≤ x) (hxw : x < w) (hy : 0 ≤ y) (hyh : y < h) :
    runReference input out0 w h sd sr (idx w x y 3) = input (idx w x y 3) :=
  runReference_alpha_eq input out0 w h sd sr hx hxw hy hyh

/-- Witness for C3 at a concrete pixel and arbitrary sigmas. -/
theorem C3_alpha_passthrough_witness :
    runReference (fun _ => 7) (fun _ => 0) 2 2 5 9 (idx 2 1 1 3) = 7 :=
  C3_alpha_passthrough (fun _ => 7) (fun _ => 0) 2 2 5 9 1 1
    (by norm_num) (by norm_num) (by norm_num) (by norm_num)

/-- C4: neighborhood sampling clamps each sampled coordinate to
`[0,W-1]` and `[0,H-1]` (edge replication, no wraparound, no
zero-padding); for the output pixel at `(0,0)`, any sample whose
unclamped coordinates are negative reads the input value at `(0,0)`. -/
theorem C4_edge_clamp (input : ℕ → ℕ) (w h x y i j : ℤ) (c : ℕ)
    (hw : 0 < w) (hh : 0 < h) :
    (0 ≤ sampleX w x i ∧ sampleX w x i ≤ w - 1 ∧
      0 ≤ sampleY h y j ∧ sampleY h y j ≤ h - 1) ∧
    (i < 0 → j < 0 → sampleChan input w h 0 0 i j c = inChan input w 0 0 c) := by
  constructor
  · unfold sampleX sampleY
    omega
  · intro hi hj
    unfold sampleChan
    have hx0 : sampleX w 0 i = 0 := by unfold sampleX; omega
    have hy0 : sampleY h 0 j = 0 := by unfold sampleY; omega
    rw [hx0, hy0]

/-- Witness for C4 on a 4×4 image with offset `(-1,-2)`. -/
theorem C4_edge_clamp_witness :
    (0 ≤ sampleX 4 1 (-1) ∧ sampleX 4 1 (-1) ≤ 4 - 1 ∧
      0 ≤ sampleY 4 2 (-2) ∧ sampleY 4 2 (-2) ≤ 4 - 1) ∧
    ((-1 : ℤ) < 0 → (-2 : ℤ) < 0 →
      sampleChan (fun _ => 3) 4 4 0 0 (-1) (-2) 0 = inChan (fun _ => 3) 4 0 0 0) :=
  C4_edge_clamp (fun _ => 3) 4 4 1 2 (-1) (-2) 0 (by norm_num) (by norm_num)

/-- Every combined bilateral weight is strictly positive. -/
lemma pixWeight_pos (input : ℕ → ℕ) (w h : ℤ) (sd sr : ℝ) (x y i j : ℤ) :
    0 < pixWeight input w h sd sr x y i j := by
  unfold pixWeight domainWeight rangeWeight
  exact mul_pos (Real.exp_pos _) (Real.exp_pos _)

/-- The weight normalization sum is strictly positive. -/
lemma coeff_pos (input : ℕ → ℕ) (w h : ℤ) (sd sr : ℝ) (x y : ℤ) :
    0 < coeff input w h sd sr x y := by
  unfold coeff
  apply List.sum_pos
  · intro s hs
    rcases List.mem_map.mp hs with ⟨j, hj, rfl⟩
    apply List.sum_pos
    · intro t ht
      rcases List.mem_map.mp ht with ⟨i, hi, rfl⟩
      exact pixWeight_pos input w h sd sr x y i j
    · simp [offsets]
  · simp [offsets]

/-- The range weight of a sample identical to the center is `exp 0 = 1`. -/
lemma rangeWeight_self (sr v1 v2 v3 : ℝ) : rangeWeight sr v1 v2 v3 v1 v2 v3 = 1 := by
  unfold rangeWeight
  simp

/-- The domain weight of the center offset `(0,0)` is `exp 0 = 1`. -/
lemma domainWeight_center (sd : ℝ) : domainWeight sd 0 0 = 1 := by
  unfold domainWeight
  norm_num [Real.sqrt_zero]

/-- At an in-range pixel, the offset-`(0,0)` sample is the center pixel. -/
lemma sampleChan_center (input : ℕ → ℕ) (w h : ℤ) {x y : ℤ} (c : ℕ)
    (hx : 0 ≤ x) (hxw : x < w) (hy : 0 ≤ y) (hyh : y < h) :
    sampleChan input w h x y 0 0 c = inChan input w x y c := by
  unfold sampleChan
  have hsx : sampleX w x 0 = x := by unfold sampleX; omega
  have hsy : sampleY h y 0 = y := by unfold sampleY; omega
  rw [hsx, hsy]

/-- The center sample's combined weight is exactly 1. -/
lemma center_weight_one (input : ℕ → ℕ) (w h : ℤ) (sd sr : ℝ) {x y : ℤ}
    (hx : 0 ≤ x) (hxw : x < w) (hy : 0 ≤ y) (hyh : y < h) :
    pixWeight input w h sd sr x y 0 0 = 1 := by
  unfold pixWeight
  rw [sampleChan_center input w h 0 hx hxw hy hyh,
    sampleChan_center input w h 1 hx hxw hy hyh,
    sampleChan_center input w h 2 hx hxw hy hyh,
    rangeWeight_self, domainWeight_center, mul_one]

/-- C5: for positive sigmas, the center sample contributes weight
`exp(0)*exp(0) = 1`, the per-pixel normalization sum is strictly
positive, and therefore the division producing each output channel never
divides by zero. -/
theorem C5_normalization_positive (input : ℕ → ℕ) (w h : ℤ) (sd sr : ℝ) (x y : ℤ)
    (hsd : 0 < sd) (hsr : 0 < sr) (hx : 0 ≤ x) (hxw : x < w) (hy : 0 ≤ y) (hyh : y < h) :
    pixWeight input w h sd sr x y 0 0 = 1 ∧
      0 < coeff input w h sd sr x y ∧ coeff input w h sd sr x y ≠ 0 :=
  ⟨center_weight_one input w h sd sr hx hxw hy hyh,
    coeff_pos input w h sd sr x y, (coeff_pos input w h sd sr x y).ne'⟩

/-- Witness for C5 at a concrete pixel with the default sigmas. -/
theorem C5_normalization_positive_witness :
    pixWeight (fun _ => 50) 2 2 3 0.2 0 0 0 0 = 1 ∧
      0 < coeff (fun _ => 50) 2 2 3 0.2 0 0 ∧ coeff (fun _ => 50) 2 2 3 0.2 0 0 ≠ 0 :=
  C5_normalization_positive (fun _ => 50) 2 2 3 0.2 0 0
    (by norm_num) (by norm_num) (by norm_num) (by norm_num) (by norm_num) (by norm_num)

/-- C6: the reference filter is deterministic — two invocations on the
same input with the same sigmas produce identical bytes at every image
byte, regardless of the initial contents of the two output buffers. -/
theorem C6_deterministic (input out1 out2 : ℕ → ℕ) (w h : ℤ) (sd sr : ℝ) (x y : ℤ) (c : ℕ)
    (hx : 0 ≤ x) (hxw : x < w) (hy : 0 ≤ y) (hyh : y < h) (hc : c < 4) :
    runReference input out1 w h sd sr (idx w x y c) =
      runReference input out2 w h sd sr (idx w x y c) := by
  rcases Nat.lt_or_ge c 3 with h3 | h3
  · rw [runReference_color input out1 w h sd sr hx hxw hy hyh h3,
      runReference_color input out2 w h sd sr hx hxw hy hyh h3]
  · have hc3 : c = 3 := by omega
    subst hc3
    rw [runReference_alpha_eq input out1 w h sd sr hx hxw hy hyh,
      runReference_alpha_eq input out2 w h sd sr hx hxw hy hyh]

/-- Witness for C6 with two different initial output buffers. -/
theorem C6_deterministic_witness :
    runReference (fun _ => 9) (fun _ => 1) 1 1 3 0.2 (idx 1 0 0 2) =
      runReference (fun _ => 9) (fun _ => 200) 1 1 3 0.2 (idx 1 0 0 2) :=
  C6_deterministic (fun _ => 9) (fun _ => 1) (fun _ => 200) 1 1 3 0.2 0 0 2
    (by norm_num) (by norm_num) (by norm_num) (by norm_num) (by norm_num)

/-- On a constant image every normalized center channel is `g/255`. -/
lemma inChan_const (g : ℕ) (w x y : ℤ) (c : ℕ) :
    inChan (fun _ => g) w x y c = (g : ℝ) / 255 := rfl

/-- On a constant image every normalized sample channel is `g/255`. -/
lemma sampleChan_const (g : ℕ) (w h x y i j : ℤ) (c : ℕ) :
    sampleChan (fun _ => g) w h x y i j c = (g : ℝ) / 255 := rfl

/-- On a constant image the range weight degenerates to 1, leaving only
the domain weight. -/
lemma pixWeight_const (g : ℕ) (w h : ℤ) (sd sr : ℝ) (x y i j : ℤ) :
    pixWeight (fun _ => g) w h sd sr x y i j = domainWeight sd i j := by
  unfold pixWeight
  rw [sampleChan_const, sampleChan_const, sampleChan_const,
    inChan_const, inChan_const, inChan_const, rangeWeight_self, mul_one]

/-- On a constant image the channel accumulator factors as
`coeff * (g/255)`. -/
lemma chanAcc_const (g : ℕ) (w h : ℤ) (sd sr : ℝ) (x y : ℤ) (c : ℕ) :
    chanAcc (fun _ => g) w h sd sr x y c =
      coeff (fun _ => g) w h sd sr x y * ((g : ℝ) / 255) := by
  unfold chanAcc coeff
  simp only [sampleChan_const, List.sum_map_mul_right]

/-- On a constant image with byte value `g ≤ 255`, every filtered output
byte equals `g`. -/
lemma outByte_const (g : ℕ) (hg : g ≤ 255) (w h : ℤ) (sd sr : ℝ) (x y : ℤ) (c : ℕ) :
    outByte (fun _ => g) w h sd sr x y c = g := by
  unfold outByte
  rw [chanAcc_const,
    mul_div_cancel_left₀ _ (coeff_pos (fun _ => g) w h sd sr x y).ne']
  have h0 : (0 : ℝ) ≤ (g : ℝ) / 255 := by positivity
  have h1 : (g : ℝ) / 255 ≤ 1 := by
    rw [div_le_one (by norm_num)]
    exact_mod_cast hg
  rw [max_eq_left h0, min_eq_left h1, div_mul_cancel₀ _ (by norm_num : (255 : ℝ) ≠ 0)]
  exact Nat.floor_natCast g

/-- C7: on a 2×2 image whose pixels all hold the same gray value, with
`sigmaDomain=3` and `sigmaRange=0.2`, the reference filter is a no-op:
every output byte equals the corresponding input byte. -/
theorem C7_flat_noop (g : ℕ) (out0 : ℕ → ℕ) (x y : ℤ) (c : ℕ)
    (hg : g ≤ 255) (hx : 0 ≤ x) (hxw : x < 2) (hy : 0 ≤ y) (hyh : y < 2) (hc : c < 4) :
    runReference (fun _ => g) out0 2 2 3 0.2 (idx 2 x y c) = g := by
  rcases Nat.lt_or_ge c 3 with h3 | h3
  · rw [runReference_color _ out0 2 2 3 0.2 hx hxw hy hyh h3, outByte_const g hg]
  · have hc3 : c = 3 := by omega
    subst hc3
    rw [runReference_alpha_eq _ out0 2 2 3 0.2 hx hxw hy hyh]

/-- Witness for C7 at gray value 128, pixel `(1,0)`, green channel. -/
theorem C7_flat_noop_witness :
    runReference (fun _ => 128) (fun _ => 0) 2 2 3 0.2 (idx 2 1 0 1) = 128 :=
  C7_flat_noop 128 (fun _ => 0) 1 0 1 (by norm_num) (by norm_num) (by norm_num)
    (by norm_num) (by norm_num) (by norm_num)

/-- Counting over a `flatMap` splits into a sum of inner counts. -/
lemma countP_flatMap {α β : Type} (l : List α) (f : α → List β) (p : β → Bool) :
    (l.flatMap f).countP p = (l.map (fun a => (f a).countP p)).sum := by
  rw [List.flatMap_def, List.countP_flatten, List.map_map]
  rfl

/-- `countP` over `List.range` as a `Finset.range` sum of indicators. -/
lemma countP_range (n : ℕ) (p : ℕ → Bool) :
    (List.range n).countP p = ∑ c ∈ Finset.range n, if p c then 1 else 0 := by
  induction n with
  | zero => simp
  | succ m ih =>
    rw [List.range_succ, List.countP_append, ih, Finset.sum_range_succ]
    simp [List.countP_cons]

/-- List-range sums of naturals as `Finset.range` sums. -/
lemma sum_map_range (n : ℕ) (f : ℕ → ℕ) :
    ((List.range n).map f).sum = ∑ i ∈ Finset.range n, f i := by
  induction n with
  | zero => simp
  | succ m ih =>
    rw [List.range_succ, List.map_append, List.sum_append, Finset.sum_range_succ, ih]
    simp

/-- The error counter of the verification loop counts exactly the
mismatching triples of the remaining list. -/
lemma foldl_verStep_fst (outB refB : ℕ → ℕ) (w : ℤ) (tol : ℕ) :
    ∀ (L : List (ℤ × ℤ × ℕ)) (st : ℕ × List VerMsg),
      (L.foldl (verStep outB refB w tol) st).1 =
        st.1 + L.countP (mismatch outB refB w tol) := by
  intro L
  induction L with
  | nil => intro st; simp
  | cons t L ih =>
    intro st
    rw [List.foldl_cons, ih, List.countP_cons]
    by_cases hm : mismatch outB refB w tol t
    · simp only [verStep, hm, if_true, if_pos]
      omega
    · simp only [verStep, hm, if_false, Bool.false_eq_true, if_neg]
      omega

/-- The verification loop's final count is the spec's mismatch number. -/
lemma countErrors_eq (outB refB : ℕ → ℕ) (w h : ℤ) (tol : ℕ) :
    countErrors outB refB w h tol = mismatchCount outB refB w h tol := by
  unfold countErrors verLoop mismatchCount
  rw [foldl_verStep_fst, Finset.card_filter, Finset.sum_product]
  unfold chanList
  rw [countP_flatMap, sum_map_range, Nat.zero_add]
  refine Finset.sum_congr rfl ?_
  intro y _
  rw [countP_flatMap, sum_map_range, Finset.sum_product]
  refine Finset.sum_congr rfl ?_
  intro x _
  rw [List.countP_map, countP_range]
  refine Finset.sum_congr rfl ?_
  intro c _
  simp [mismatch, Function.comp]

/-- C2: the verifier's final error count equals exactly the number of
(pixel, channel) pairs, over the three color channels only (alpha is
never compared), whose absolute difference on the 0–255 scale exceeds
the tolerance; for two 2×2 images differing by exactly 2 in one channel
of one pixel, the count is 1 at tolerance 1 and 0 at tolerance 2. -/
theorem C2_verifier_count :
    (∀ (outB refB : ℕ → ℕ) (w h : ℤ) (tol : ℕ),
      countErrors outB refB w h tol = mismatchCount outB refB w h tol) ∧
    countErrors (fun _ => 100) (fun n => if n = 5 then 102 else 100) 2 2 1 = 1 ∧
    countErrors (fun _ => 100) (fun n => if n = 5 then 102 else 100) 2 2 2 = 0 := by
  refine ⟨countErrors_eq, by decide, by decide⟩

/-- One verification-loop step preserves the message-shape invariant:
the number of detail lines is `min errors 8`, and no total or success
line has been printed inside the loop. -/
lemma verStep_invariant (outB refB : ℕ → ℕ) (w : ℤ) (tol : ℕ) (st : ℕ × List VerMsg)
    (t : ℤ × ℤ × ℕ)
    (h1 : st.2.countP VerMsg.isDetail = min st.1 8)
    (h2 : st.2.countP VerMsg.isTotal = 0)
    (h3 : st.2.countP VerMsg.isPassed = 0) :
    (verStep outB refB w tol st t).2.countP VerMsg.isDetail =
        min (verStep outB refB w tol st t).1 8 ∧
      (verStep outB refB w tol st t).2.countP VerMsg.isTotal = 0 ∧
      (verStep outB refB w tol st t).2.countP VerMsg.isPassed = 0 := by
  unfold verStep
  by_cases hm : mismatch outB refB w tol t
  · rw [if_pos hm]
    dsimp only
    simp only [List.countP_append, apply_ite (List.countP VerMsg.isDetail),
      apply_ite (List.countP VerMsg.isTotal), apply_ite (List.countP VerMsg.isPassed),
      List.countP_cons, List.countP_nil, VerMsg.isDetail, VerMsg.isTotal, VerMsg.isPassed,
      h1, h2, h3]
    refine ⟨?_, ?_, ?_⟩ <;> split_ifs <;> simp_all <;> omega
  · rw [if_neg hm]
    exact ⟨h1, h2, h3⟩

/-- The verification loop maintains the message-shape invariant. -/
lemma foldl_verStep_msgs (outB refB : ℕ → ℕ) (w : ℤ) (tol : ℕ) :
    ∀ (L : List (ℤ × ℤ × ℕ)) (st : ℕ × List VerMsg),
      st.2.countP VerMsg.isDetail = min st.1 8 →
      st.2.countP VerMsg.isTotal = 0 →
      st.2.countP VerMsg.isPassed = 0 →
      (L.foldl (verStep outB refB w tol) st).2.countP VerMsg.isDetail =
          min (L.foldl (verStep outB refB w tol) st).1 8 ∧
        (L.foldl (verStep outB refB w tol) st).2.countP VerMsg.isTotal = 0 ∧
        (L.foldl (verStep outB refB w tol) st).2.countP VerMsg.isPassed = 0 := by
  intro L
  induction L with
  | nil => intro st h1 h2 h3; exact ⟨h1, h2, h3⟩
  | cons t L ih =>
    intro st h1 h2 h3
    rw [List.foldl_cons]
    obtain ⟨g1, g2, g3⟩ := verStep_invariant outB refB w tol st t h1 h2 h3
    exact ih (verStep outB refB w tol st t) g1 g2 g3

/-- C8 counterexample: on a mismatch-free run the verifier prints only
`"Verification passed."`; contrary to the claim, no final total-mismatch-
count line is printed when the count is zero. -/
theorem C8_counterexample :
    verRun (fun _ => 100) (fun _ => 100) 1 1 1 = (0, [VerMsg.passed]) ∧
      (verRun (fun _ => 100) (fun _ => 100) 1 1 1).2.countP VerMsg.isTotal = 0 := by
  decide

/-- C8 (amended): every run prints detail lines for exactly the first
`min errors 8` mismatches, prints the final total mismatch count exactly
when the count is nonzero, and reports success exactly when it is zero. -/
theorem C8_bounded_reporting (outB refB : ℕ → ℕ) (w h : ℤ) (tol : ℕ) (htol : 0 ≤ tol) :
    (verRun outB refB w h tol).2.countP VerMsg.isDetail =
        min (verRun outB refB w h tol).1 8 ∧
      (VerMsg.total (verRun outB refB w h tol).1 ∈ (verRun outB refB w h tol).2 ↔
        (verRun outB refB w h tol).1 ≠ 0) ∧
      (VerMsg.passed ∈ (verRun outB refB w h tol).2 ↔
        (verRun outB refB w h tol).1 = 0) := by
  obtain ⟨i1, i2, i3⟩ := foldl_verStep_msgs outB refB w tol (chanList w h) (0, [])
    (by simp) (by simp) (by simp)
  have hnt := List.countP_eq_zero.mp i2
  have hnp := List.countP_eq_zero.mp i3
  unfold verRun verLoop
  set L := (chanList w h).foldl (verStep outB refB w tol) (0, ([] : List VerMsg)) with hL
  by_cases h0 : L.1 = 0
  · rw [if_pos h0]
    dsimp only
    refine ⟨?_, ?_, ?_⟩
    · rw [List.countP_append, i1]
      simp [VerMsg.isDetail]
    · constructor
      · intro hmem
        rcases List.mem_append.mp hmem with hm | hm
        · exact absurd rfl (hnt _ hm)
        · exact absurd (List.mem_singleton.mp hm) (fun hEq => VerMsg.noConfusion hEq)
      · intro hne
        exact absurd h0 hne
    · exact ⟨fun _ => h0, fun _ => List.mem_append_right _ (List.mem_singleton.mpr rfl)⟩
  · rw [if_neg h0]
    dsimp only
    refine ⟨?_, ?_, ?_⟩
    · rw [List.countP_append, i1]
      simp [VerMsg.isDetail]
    · exact ⟨fun _ => h0, fun _ => List.mem_append_right _ (List.mem_singleton.mpr rfl)⟩
    · constructor
      · intro hmem
        rcases List.mem_append.mp hmem with hm | hm
        · exact absurd rfl (hnp _ hm)
        · exact absurd (List.mem_singleton.mp hm) (fun hEq => VerMsg.noConfusion hEq)
      · intro hz
        exact absurd hz h0

/-- Witness for the amended C8 on a concrete pair of images. -/
theorem C8_bounded_reporting_witness :
    (verRun (fun _ => 0) (fun _ => 9) 1 1 1).2.countP VerMsg.isDetail =
        min (verRun (fun _ => 0) (fun _ => 9) 1 1 1).1 8 ∧
      (VerMsg.total (verRun (fun _ => 0) (fun _ => 9) 1 1 1).1 ∈
          (verRun (fun _ => 0) (fun _ => 9) 1 1 1).2 ↔
        (verRun (fun _ => 0) (fun _ => 9) 1 1 1).1 ≠ 0) ∧
      (VerMsg.passed ∈ (verRun (fun _ => 0) (fun _ => 9) 1 1 1).2 ↔
        (verRun (fun _ => 0) (fun _ => 9) 1 1 1).1 = 0) :=
  C8_bounded_reporting (fun _ => 0) (fun _ => 9) 1 1 1 (by norm_num)

/-- C9: the benchmark loop issues exactly `iterations` kernel invocations,
all against the same input and output storage with the same sigmas; for
`iterations ≥ 1` it executes at least once; and the reported per-frame
latency is `total/iterations` by definition. -/
theorem C9_benchmark_loop (inBuf outBuf : ℕ) (sd sr total : ℝ) (n : ℕ) (hn : 1 ≤ n) :
    (benchmarkLoop inBuf outBuf sd sr n).length = n ∧
      (∀ call ∈ benchmarkLoop inBuf outBuf sd sr n,
        call = KernelInvocation.mk inBuf outBuf sd sr) ∧
      benchmarkLoop inBuf outBuf sd sr n ≠ [] ∧
      perFrame total n = total / (n : ℝ) := by
  refine ⟨by simp [benchmarkLoop], ?_, ?_, rfl⟩
  · intro call hc
    rcases List.mem_map.mp hc with ⟨k, _, hEq⟩
    exact hEq.symm
  · intro hnil
    have hlen := congrArg List.length hnil
    simp [benchmarkLoop] at hlen
    omega

/-- Witness for C9 with the default iteration count 32. -/
theorem C9_benchmark_loop_witness :
    (benchmarkLoop 0 1 3 0.2 32).length = 32 ∧
      (∀ call ∈ benchmarkLoop 0 1 3 0.2 32, call = KernelInvocation.mk 0 1 3 0.2) ∧
      benchmarkLoop 0 1 3 0.2 32 ≠ [] ∧
      perFrame 64 32 = 64 / (32 : ℝ) :=
  C9_benchmark_loop 0 1 3 0.2 64 32 (by norm_num)

/-- With `w ≤ 0` or `h ≤ 0` the filter loop visits no pixel. -/
lemma pixelList_nil {w h : ℤ} (hwh : w ≤ 0 ∨ h ≤ 0) : pixelList w h = [] := by
  unfold pixelList
  rcases hwh with hw | hh
  · have hw0 : w.toNat = 0 := by omega
    rw [hw0]
    simp
  · have hh0 : h.toNat = 0 := by omega
    rw [hh0]
    simp

/-- With `w ≤ 0` or `h ≤ 0` the verification loop visits no triple. -/
lemma chanList_nil {w h : ℤ} (hwh : w ≤ 0 ∨ h ≤ 0) : chanList w h = [] := by
  unfold chanList
  rcases hwh with hw | hh
  · have hw0 : w.toNat = 0 := by omega
    rw [hw0]
    simp
  · have hh0 : h.toNat = 0 := by omega
    rw [hh0]
    simp

/-- C10: on degenerate dimensions (zero or negative width or height) the
reference filter writes no byte at all — the output buffer is returned
unchanged — and the verification phase counts zero errors and reports
success. -/
theorem C10_degenerate_dims (input out0 outB refB : ℕ → ℕ) (w h : ℤ) (sd sr : ℝ)
    (tol : ℕ) (hwh : w ≤ 0 ∨ h ≤ 0) :
    runReference input out0 w h sd sr = out0 ∧
      countErrors outB refB w h tol = 0 ∧
      verRun outB refB w h tol = (0, [VerMsg.passed]) := by
  refine ⟨?_, ?_, ?_⟩
  · unfold runReference
    rw [pixelList_nil hwh]
    rfl
  · unfold countErrors verLoop
    rw [chanList_nil hwh]
    rfl
  · unfold verRun verLoop
    rw [chanList_nil hwh]
    rfl

/-- Witness for C10 at `w = 0`, `h = 5`. -/
theorem C10_degenerate_dims_witness :
    runReference (fun _ => 1) (fun _ => 2) 0 5 3 0.2 = (fun _ => 2) ∧
      countErrors (fun _ => 1) (fun _ => 9) 0 5 4 = 0 ∧
      verRun (fun _ => 1) (fun _ => 9) 0 5 4 = (0, [VerMsg.passed]) :=
  C10_degenerate_dims (fun _ => 1) (fun _ => 2) (fun _ => 1) (fun _ => 9) 0 5 3 0.2 4
    (Or.inl (by norm_num))
